import Mathlib

/-!
Verification development for the propagation-based local-search node
abstraction of the bitwuzla bit-vector solver (ls/node/node.h).

The repository snapshot ships the declaration header `node.h` only; the
implementations of the virtual members live outside the snapshot.  Where a
definition below embeds code that is present in the header (default member
initializers, static configuration defaults, documented return conventions)
its doc comment says so; where the implementation is absent, the definition
is modelled from the specification and its doc comment starts with
`Modelled from the spec:`.
-/

namespace BzlaLS

/-- Operator kinds of the modelled node variants.  `CONST` is the leaf /
constant marker (the header's default `kind()` returns `NodeKind::CONST`). -/
inductive NKind where
  | CONST
  | ADD
  | AND
  | NOT
  | CONCAT
deriving DecidableEq, Repr

/-- Modelled from the spec: a DAG node of the operator variant family
(§4.3), restricted to a representative closed set of bit-vector operators
(add, and, not, concat) over machine integers modelled as `Nat` with
explicit reduction modulo `2 ^ width`.  `children` holds the current
assignments of the children (0-3 of them); `cw` is the bit-width of the
second concat operand; `assignment` is the node's current value.  The
per-operator arithmetic is external to `node.h`, so it is modelled from the
published forward semantics named in the spec (§4.3). -/
structure LNode where
  kind : NKind
  width : Nat
  cw : Nat
  children : List Nat
  assignment : Nat
deriving DecidableEq, Repr

/-- Modelled from the spec: `evaluate()` recomputes this node's assignment
from its children's current assignments using the operator's forward
semantics (§4.1); a no-op for leaves (`CONST`). -/
def evaluate (n : LNode) : LNode :=
  match n.kind with
  | NKind.CONST => n
  | NKind.ADD =>
      { n with assignment := (n.children.getD 0 0 + n.children.getD 1 0) % 2 ^ n.width }
  | NKind.AND =>
      { n with assignment := n.children.getD 0 0 &&& n.children.getD 1 0 }
  | NKind.NOT =>
      { n with assignment := 2 ^ n.width - 1 - n.children.getD 0 0 }
  | NKind.CONCAT =>
      { n with assignment := n.children.getD 0 0 * 2 ^ n.cw + n.children.getD 1 0 }

/-- Modelled from the spec: the invertibility condition `is_invertible(t,
pos_x)` of §4.3 — whether there exists a value for the child at `pos_x`
such that, with the other children held at their current assignments, the
operator maps to exactly `t`.  The per-operator closed forms are the
published bit-vector invertibility conditions (spec §4.3: these are data,
followed exactly): addition and bitwise negation are always invertible,
bitwise and requires `t &&& s = t`, concatenation requires the fixed
operand to agree with the corresponding slice of `t`. -/
def is_invertible (n : LNode) (t : Nat) (pos : Nat) : Bool :=
  match n.kind, pos with
  | NKind.CONST, _ => false
  | NKind.ADD, _ => true
  | NKind.AND, 0 => t &&& n.children.getD 1 0 = t
  | NKind.AND, _ => t &&& n.children.getD 0 0 = t
  | NKind.NOT, _ => true
  | NKind.CONCAT, 0 => t % 2 ^ n.cw = n.children.getD 1 0
  | NKind.CONCAT, _ => t / 2 ^ n.cw = n.children.getD 0 0

/-- Modelled from the spec: `inverse_value(t, pos_x)` of §4.3 — a value for
the child at `pos_x` satisfying the invertibility condition, derived via
the operator's closed form. -/
def inverse_value (n : LNode) (t : Nat) (pos : Nat) : Nat :=
  match n.kind, pos with
  | NKind.CONST, _ => 0
  | NKind.ADD, 0 => (t + 2 ^ n.width - n.children.getD 1 0) % 2 ^ n.width
  | NKind.ADD, _ => (t + 2 ^ n.width - n.children.getD 0 0) % 2 ^ n.width
  | NKind.AND, _ => t
  | NKind.NOT, _ => 2 ^ n.width - 1 - t
  | NKind.CONCAT, 0 => t / 2 ^ n.cw
  | NKind.CONCAT, _ => t % 2 ^ n.cw

/-- Overwrite the assignment of the child at index `pos` (the propagation
step applies `inverse_value` to the selected child, spec §4.5). -/
def set_child (n : LNode) (pos : Nat) (v : Nat) : LNode :=
  { n with children := n.children.set pos v }

/-- Well-formedness of a modelled node: the arity matches the kind, child
assignments are reduced modulo their widths, and for concat the node width
is the sum of the operand widths. -/
def wf (n : LNode) : Prop :=
  match n.kind with
  | NKind.CONST => n.children = []
  | NKind.ADD =>
      n.children.length = 2 ∧ n.children.getD 0 0 < 2 ^ n.width ∧
        n.children.getD 1 0 < 2 ^ n.width
  | NKind.AND =>
      n.children.length = 2 ∧ n.children.getD 0 0 < 2 ^ n.width ∧
        n.children.getD 1 0 < 2 ^ n.width
  | NKind.NOT => n.children.length = 1 ∧ n.children.getD 0 0 < 2 ^ n.width
  | NKind.CONCAT =>
      n.children.length = 2 ∧ ∃ w0, n.width = w0 + n.cw ∧
        n.children.getD 0 0 < 2 ^ w0 ∧ n.children.getD 1 0 < 2 ^ n.cw

theorem getD_set_self {l : List Nat} {pos : Nat} (h : pos < l.length) (v : Nat) :
    (l.set pos v).getD pos 0 = v := by
  simp [List.getD_eq_getElem?_getD, List.getElem?_set_self, h]

theorem getD_set_ne {l : List Nat} {pos i : Nat} (h : pos ≠ i) (v : Nat) :
    (l.set pos v).getD i 0 = l.getD i 0 := by
  simp [List.getD_eq_getElem?_getD, List.getElem?_set_ne h]

theorem add_inverse_mod (t s m : Nat) (ht : t < m) (hs : s < m) :
    (s + (t + m - s) % m) % m = t := by
  have hsub : s + (t + m - s) = t + m := by omega
  calc (s + (t + m - s) % m) % m
      = (s % m + (t + m - s) % m % m) % m := by rw [Nat.add_mod]
    _ = (s % m + (t + m - s) % m) % m := by rw [Nat.mod_mod_of_dvd _ dvd_rfl]
    _ = (s + (t + m - s)) % m := by rw [← Nat.add_mod]
    _ = (t + m) % m := by rw [hsub]
    _ = t % m := by rw [Nat.add_mod_right]
    _ = t := Nat.mod_eq_of_lt ht

/-- C1: for every node, every target value `t` and every child position
`pos`, if `is_invertible t pos` returns true, then setting child `pos` to
`inverse_value t pos` and calling `evaluate` on the node makes the node's
assignment exactly `t`. -/
theorem invertibility_sound (n : LNode) (t pos : Nat) (hwf : wf n)
    (ht : t < 2 ^ n.width) (hpos : pos < n.children.length)
    (hinv : is_invertible n t pos = true) :
    (evaluate (set_child n pos (inverse_value n t pos))).assignment = t := by
  obtain ⟨k, w, cw, cs, a⟩ := n
  cases k
  case CONST => exact absurd hinv (by simp [is_invertible])
  case ADD =>
    obtain ⟨hlen, h0, h1⟩ := hwf
    simp only at hlen hpos h0 h1
    have hp : pos = 0 ∨ pos = 1 := by omega
    rcases hp with hp | hp <;> subst hp
    · simp only [evaluate, set_child, inverse_value]
      rw [getD_set_self (by omega), getD_set_ne (by omega), Nat.add_comm]
      exact add_inverse_mod t _ _ ht h1
    · simp only [evaluate, set_child, inverse_value]
      rw [getD_set_self (by omega), getD_set_ne (by omega)]
      exact add_inverse_mod t _ _ ht h0
  case AND =>
    obtain ⟨hlen, h0, h1⟩ := hwf
    simp only at hlen hpos h0 h1
    have hp : pos = 0 ∨ pos = 1 := by omega
    rcases hp with hp | hp <;> subst hp
    · simp only [is_invertible, decide_eq_true_eq] at hinv
      simp only [evaluate, set_child, inverse_value]
      rw [getD_set_self (by omega), getD_set_ne (by omega)]
      exact hinv
    · simp only [is_invertible, decide_eq_true_eq] at hinv
      simp only [evaluate, set_child, inverse_value]
      rw [getD_set_self (by omega), getD_set_ne (by omega), Nat.land_comm]
      exact hinv
  case NOT =>
    obtain ⟨hlen, h0⟩ := hwf
    simp only at hlen hpos h0 ht
    have hp : pos = 0 := by omega
    subst hp
    simp only [evaluate, set_child, inverse_value]
    rw [getD_set_self (by omega)]
    have hm : 1 ≤ 2 ^ w := Nat.one_le_two_pow
    omega
  case CONCAT =>
    obtain ⟨hlen, -⟩ := hwf
    simp only at hlen hpos
    have hp : pos = 0 ∨ pos = 1 := by omega
    rcases hp with hp | hp <;> subst hp
    · simp only [is_invertible, decide_eq_true_eq] at hinv
      simp only [evaluate, set_child, inverse_value]
      rw [getD_set_self (by omega), getD_set_ne (by omega), ← hinv,
        Nat.mul_comm]
      exact Nat.div_add_mod t (2 ^ cw)
    · simp only [is_invertible, decide_eq_true_eq] at hinv
      simp only [evaluate, set_child, inverse_value]
      rw [getD_set_self (by omega), getD_set_ne (by omega), ← hinv,
        Nat.mul_comm]
      exact Nat.div_add_mod t (2 ^ cw)

/-- Witness for C1 at the spec's own scenario (§8): a 2-child addition node
of width 4 with the left child fixed at 2 and target 5; the inverse for
position 1 is 3 and evaluating after the update yields 5. -/
theorem invertibility_sound_witness :
    (evaluate (set_child ⟨NKind.ADD, 4, 0, [2, 0], 0⟩ 1
      (inverse_value ⟨NKind.ADD, 4, 0, [2, 0], 0⟩ 5 1))).assignment = 5 :=
  invertibility_sound ⟨NKind.ADD, 4, 0, [2, 0], 0⟩ 5 1
    ⟨rfl, by decide, by decide⟩ (by decide) (by decide) (by decide)

/-- Modelled from the spec: the DAG as an arena of nodes addressed by
stable integer ids (§9); entry `i` of the arena lists the ids of node `i`'s
children, an empty list marking a leaf.  `postOrdered` is the post-order id
invariant of `d_id` / `d_normalized_id` (node.h lines 217-232): every child
id is strictly smaller than its parent's id. -/
def postOrdered (dag : List (List Nat)) : Prop :=
  ∀ i, i < dag.length → ∀ j ∈ dag.getD i [], j < i

instance (dag : List (List Nat)) : Decidable (postOrdered dag) := by
  unfold postOrdered
  infer_instance

theorem postOrdered_all {dag : List (List Nat)} (hpo : postOrdered dag) :
    ∀ i, ∀ j ∈ dag.getD i [], j < i := by
  intro i j hj
  by_cases h : i < dag.length
  · exact hpo i h j hj
  · rw [List.getD_eq_default _ _ (by omega)] at hj
    exact absurd hj (List.not_mem_nil j)

/-- Reachability along child edges: `Reach dag i j` holds when node `j` is
a proper descendant of node `i` (equivalently, `i` is a proper ancestor of
`j`, i.e. `i` lies in the cone of influence of `j`). -/
inductive Reach (dag : List (List Nat)) : Nat → Nat → Prop where
  | child : ∀ i j, j ∈ dag.getD i [] → Reach dag i j
  | step : ∀ i j k, j ∈ dag.getD i [] → Reach dag j k → Reach dag i k

/-- Fuel-bounded membership test for the cone of influence of leaf `l`:
node `i` is `l` itself or has a child in the cone.  Under `postOrdered`,
fuel `i` is always sufficient (children have strictly smaller ids). -/
def affectsF (dag : List (List Nat)) (l : Nat) : Nat → Nat → Bool
  | 0, i => i == l
  | fuel + 1, i => (i == l) || ((dag.getD i []).any fun j => affectsF dag l fuel j)

/-- Membership in the cone of influence of leaf `l` (spec glossary: the set
of ancestors whose evaluated value depends, transitively, on `l`, plus `l`
itself). -/
def affects (dag : List (List Nat)) (l i : Nat) : Bool := affectsF dag l i i

theorem affectsF_self (dag : List (List Nat)) (l : Nat) :
    ∀ fuel, affectsF dag l fuel l = true := by
  intro fuel
  cases fuel <;> simp [affectsF]

theorem affectsF_sound (dag : List (List Nat)) (l : Nat) :
    ∀ fuel i, affectsF dag l fuel i = true → i = l ∨ Reach dag i l := by
  intro fuel
  induction fuel with
  | zero =>
      intro i h
      simp only [affectsF, beq_iff_eq] at h
      exact Or.inl h
  | succ fuel ih =>
      intro i h
      simp only [affectsF, Bool.or_eq_true, beq_iff_eq, List.any_eq_true] at h
      rcases h with h | ⟨j, hj, hrec⟩
      · exact Or.inl h
      · rcases ih j hrec with h | h
        · subst h
          exact Or.inr (Reach.child i j hj)
        · exact Or.inr (Reach.step i j l hj h)

theorem affectsF_complete {dag : List (List Nat)} (hpo : postOrdered dag)
    (l : Nat) : ∀ i, Reach dag i l → ∀ fuel, i ≤ fuel →
      affectsF dag l fuel i = true := by
  intro i hr
  induction hr with
  | child i j hj =>
      intro fuel hfuel
      have hji : j < i := postOrdered_all hpo i j hj
      cases fuel with
      | zero => exact absurd hfuel (by omega)
      | succ fuel =>
          simp only [affectsF, Bool.or_eq_true, List.any_eq_true]
          exact Or.inr ⟨j, hj, affectsF_self dag j fuel⟩
  | step i j k hj hrec ih =>
      intro fuel hfuel
      have hji : j < i := postOrdered_all hpo i j hj
      cases fuel with
      | zero => exact absurd hfuel (by omega)
      | succ fuel =>
          simp only [affectsF, Bool.or_eq_true, List.any_eq_true]
          exact Or.inr ⟨j, hj, ih fuel (by omega)⟩

theorem affects_iff {dag : List (List Nat)} (hpo : postOrdered dag)
    (l i : Nat) : affects dag l i = true ↔ (i = l ∨ Reach dag i l) := by
  constructor
  · exact affectsF_sound dag l i i
  · intro h
    rcases h with h | h
    · subst h
      exact affectsF_self dag i i
    · exact affectsF_complete hpo l i h i le_rfl

/-- Modelled from the spec: the cone of influence of leaf `l` among ids
`0..n-1`, listed in strictly ascending id order — the visit order of the
cone-of-influence re-evaluation (§4.4). -/
def cone (dag : List (List Nat)) (l n : Nat) : List Nat :=
  (List.range n).filter fun i => affects dag l i

/-- One `evaluate()` call of the cone update: recompute the assignment of
node `i` from its children's current assignments (`f i` is node `i`'s
forward semantics); a no-op for leaves. -/
def evalStep (dag : List (List Nat)) (f : Nat → List Nat → Nat)
    (s : List Nat) (i : Nat) : List Nat :=
  if dag.getD i [] = [] then s
  else s.set i (f i ((dag.getD i []).map fun j => s.getD j 0))

/-- Modelled from the spec: cone-of-influence re-evaluation (§4.4) —
overwrite the assignment of leaf `l` with `v`, then visit the affected
ancestors in strictly ascending id order, calling `evaluate()` on each
exactly once. -/
def update_cone (dag : List (List Nat)) (f : Nat → List Nat → Nat)
    (l v : Nat) (st : List Nat) : List Nat :=
  (cone dag l st.length).foldl (evalStep dag f) (st.set l v)

theorem evalStep_length (dag : List (List Nat)) (f : Nat → List Nat → Nat)
    (s : List Nat) (i : Nat) : (evalStep dag f s i).length = s.length := by
  unfold evalStep
  split
  · rfl
  · exact List.length_set s i _

theorem evalStep_getD_ne (dag : List (List Nat)) (f : Nat → List Nat → Nat)
    (s : List Nat) {i j : Nat} (h : i ≠ j) :
    (evalStep dag f s i).getD j 0 = s.getD j 0 := by
  unfold evalStep
  split
  · rfl
  · exact getD_set_ne h _

theorem evalFold_length (dag : List (List Nat)) (f : Nat → List Nat → Nat) :
    ∀ (is : List Nat) (s : List Nat),
      (is.foldl (evalStep dag f) s).length = s.length := by
  intro is
  induction is with
  | nil => intro s; rfl
  | cons a rest ih =>
      intro s
      simp only [List.foldl_cons]
      rw [ih, evalStep_length]

theorem evalFold_getD_not_mem (dag : List (List Nat))
    (f : Nat → List Nat → Nat) :
    ∀ (is : List Nat) (s : List Nat) (j : Nat), j ∉ is →
      (is.foldl (evalStep dag f) s).getD j 0 = s.getD j 0 := by
  intro is
  induction is with
  | nil => intro s j _; rfl
  | cons a rest ih =>
      intro s j hj
      simp only [List.mem_cons, not_or] at hj
      simp only [List.foldl_cons]
      rw [ih _ j hj.2, evalStep_getD_ne dag f s (Ne.symm hj.1)]

theorem evalFold_spec (dag : List (List Nat)) (f : Nat → List Nat → Nat) :
    ∀ (is : List Nat) (s : List Nat),
      (∀ i ∈ is, ∀ j ∈ dag.getD i [], j < i) →
      List.Pairwise (· < ·) is →
      ∀ i ∈ is, dag.getD i [] ≠ [] → i < s.length →
        (is.foldl (evalStep dag f) s).getD i 0
          = f i ((dag.getD i []).map fun j =>
              (is.foldl (evalStep dag f) s).getD j 0) := by
  intro is
  induction is with
  | nil => intro s _ _ i hi; exact absurd hi (List.not_mem_nil i)
  | cons a rest ih =>
      intro s hch hsort i hi hne hlen
      have ha : ∀ b ∈ rest, a < b := fun b hb => List.rel_of_pairwise_cons hsort hb
      have hrest : List.Pairwise (· < ·) rest := List.Pairwise.of_cons hsort
      simp only [List.foldl_cons]
      rcases List.mem_cons.mp hi with hia | hirest
      · subst hia
        have hanotin : i ∉ rest := fun h => absurd (ha i h) (lt_irrefl i)
        rw [evalFold_getD_not_mem dag f rest _ i hanotin]
        have hstep : (evalStep dag f s i).getD i 0
            = f i ((dag.getD i []).map fun j => s.getD j 0) := by
          unfold evalStep
          rw [if_neg hne]
          exact getD_set_self hlen _
        rw [hstep]
        congr 1
        apply List.map_congr_left
        intro j hj
        have hji : j < i := hch i hi j hj
        have hjnotin : j ∉ rest := fun h => absurd (ha j h) (by omega)
        rw [evalFold_getD_not_mem dag f rest _ j hjnotin,
          evalStep_getD_ne dag f s (by omega : i ≠ j)]
      · exact ih (evalStep dag f s a)
          (fun i hi => hch i (List.mem_cons_of_mem a hi)) hrest i hirest hne
          (by rw [evalStep_length]; exact hlen)

/-- C2: after a leaf assignment change, the cone-of-influence
re-evaluation visits the affected ancestors in strictly ascending id order
(the visited list `cone` is strictly sorted and contains exactly the
affected nodes, each occurring — hence evaluated — once), and afterwards
every ancestor's assignment equals the value its `evaluate()` would
produce from its children's current assignments (no stale ancestor). -/
theorem cone_update_no_stale (dag : List (List Nat))
    (f : Nat → List Nat → Nat) (l v : Nat) (st : List Nat)
    (hpo : postOrdered dag) :
    List.Pairwise (· < ·) (cone dag l st.length)
    ∧ (∀ i, i ∈ cone dag l st.length ↔
        i < st.length ∧ (i = l ∨ Reach dag i l))
    ∧ (∀ i, i < st.length → Reach dag i l →
        (update_cone dag f l v st).getD i 0
          = f i ((dag.getD i []).map fun j =>
              (update_cone dag f l v st).getD j 0)) := by
  refine ⟨?_, ?_, ?_⟩
  · exact (List.pairwise_lt_range st.length).sublist
      (List.filter_sublist (List.range st.length))
  · intro i
    unfold cone
    rw [List.mem_filter, List.mem_range]
    rw [affects_iff hpo]
  · intro i hlen hr
    have hmem : i ∈ cone dag l st.length := by
      unfold cone
      rw [List.mem_filter, List.mem_range]
      exact ⟨hlen, (affects_iff hpo l i).mpr (Or.inr hr)⟩
    have hne : dag.getD i [] ≠ [] := by
      cases hr with
      | child _ _ hj => intro h; rw [h] at hj; exact absurd hj (List.not_mem_nil _)
      | step _ j _ hj _ => intro h; rw [h] at hj; exact absurd hj (List.not_mem_nil _)
    unfold update_cone
    exact evalFold_spec dag f (cone dag l st.length) (st.set l v)
      (fun i _ j hj => postOrdered_all hpo i j hj)
      ((List.pairwise_lt_range st.length).sublist
        (List.filter_sublist (List.range st.length)))
      i hmem hne (by rw [List.length_set]; exact hlen)

/-- Forward semantics used by the C2 witness: node `i` adds `i` to its
first child's assignment. -/
def demoF (i : Nat) (cs : List Nat) : Nat := cs.headD 0 + i

/-- Witness for C2: in the three-node chain `0 <- 1 <- 2`, changing leaf 0
to 5 and running the cone update leaves ancestor 2 with exactly the value
its evaluation function produces from its child's updated assignment. -/
theorem cone_update_no_stale_witness :
    postOrdered [[], [0], [1]]
    ∧ (update_cone [[], [0], [1]] demoF 0 5
        [9, 9, 9]).getD 2 0
      = demoF 2
          ((([[], [0], [1]] : List (List Nat)).getD 2 []).map fun j =>
            (update_cone [[], [0], [1]] demoF 0 5
              [9, 9, 9]).getD j 0) :=
  ⟨by decide,
   (cone_update_no_stale [[], [0], [1]] demoF 0 5
      [9, 9, 9] (by decide)).2.2 2 (by decide)
     (Reach.step 2 1 0 (by decide) (Reach.child 1 0 (by decide)))⟩

/-- Modelled from the spec: driver-side node construction (§3, §9): nodes
are created bottom-up and ids are assigned monotonically at construction —
a node may only be appended to the arena when all its children already
exist, and it receives the next id (the current arena size). -/
def addNode (dag : List (List Nat)) (cs : List Nat) :
    Option (List (List Nat)) :=
  if cs.all fun j => j < dag.length then some (dag ++ [cs]) else none

/-- Modelled from the spec: bottom-up construction of a whole DAG from a
list of child-id-lists, assigning ids `0, 1, 2, ...` in construction
order. -/
def buildDag (ops : List (List Nat)) : Option (List (List Nat)) :=
  ops.foldl (fun acc cs => acc.bind fun dag => addNode dag cs) (some [])

/-- Modelled from the spec: recomputation of `d_normalized_id` for an
implementation that performs no destructive rewriting — node.h prescribes
setting it to the same value as `d_id` in that case. -/
def normalized_id (i : Nat) : Nat := i

theorem addNode_postOrdered {dag dag2 : List (List Nat)} {cs : List Nat}
    (hpo : postOrdered dag) (h : addNode dag cs = some dag2) :
    postOrdered dag2 := by
  unfold addNode at h
  split at h
  case isTrue hall =>
    rw [Option.some_inj] at h
    subst h
    intro i hi j hj
    rw [List.length_append, List.length_cons, List.length_nil] at hi
    rcases Nat.lt_succ_iff_lt_or_eq.mp hi with hi | hi
    · rw [List.getD_eq_getElem?_getD, List.getElem?_append_left hi,
        ← List.getD_eq_getElem?_getD] at hj
      exact hpo i hi j hj
    · subst hi
      rw [List.getD_eq_getElem?_getD, List.getElem?_concat_length] at hj
      simp only [Option.getD_some] at hj
      simpa using (List.all_eq_true.mp hall j hj)
  case isFalse => exact Option.noConfusion h

theorem buildDag_postOrdered :
    ∀ (ops : List (List Nat)) (acc : Option (List (List Nat)))
      (dag : List (List Nat)),
      (∀ d, acc = some d → postOrdered d) →
      ops.foldl (fun acc cs => acc.bind fun dag => addNode dag cs) acc
        = some dag →
      postOrdered dag := by
  intro ops
  induction ops with
  | nil =>
      intro acc dag hacc h
      exact hacc dag h
  | cons c rest ih =>
      intro acc dag hacc h
      simp only [List.foldl_cons] at h
      refine ih _ dag ?_ h
      intro d hd
      cases acc with
      | none => exact Option.noConfusion hd
      | some a => exact addNode_postOrdered (hacc a rfl) hd

theorem reach_lt {dag : List (List Nat)} (hpo : postOrdered dag) :
    ∀ b a, Reach dag b a → a < b := by
  intro b a h
  induction h with
  | child i j hj => exact postOrdered_all hpo i j hj
  | step i j k hj hr ih => exact lt_trans ih (postOrdered_all hpo i j hj)

/-- C3: in a DAG built bottom-up (ids assigned monotonically at
construction, children before parents), ascending id order is a valid DAG
post-order: if `b` is a proper ancestor of `a` then `id a < id b`, and the
normalized ids (recomputed as the identity renumbering when no destructive
rewrite has occurred, per node.h) satisfy the same strict ordering. -/
theorem ids_post_order (ops dag : List (List Nat))
    (hb : buildDag ops = some dag) :
    postOrdered dag
    ∧ (∀ a b, Reach dag b a → a < b)
    ∧ (∀ a b, Reach dag b a →
        normalized_id a < normalized_id b) := by
  have hpo : postOrdered dag :=
    buildDag_postOrdered ops (some []) dag
      (fun d hd => by
        rw [Option.some_inj] at hd
        subst hd
        intro i hi
        exact absurd hi (by simp)) hb
  exact ⟨hpo, fun a b h => reach_lt hpo b a h,
    fun a b h => reach_lt hpo b a h⟩

/-- Witness for C3: the DAG with two leaves and one binary parent; the
parent (id 2) is an ancestor of leaf 0 and indeed 0 < 2. -/
theorem ids_post_order_witness :
    buildDag [[], [], [0, 1]] = some [[], [], [0, 1]] ∧ (0 : Nat) < 2 :=
  ⟨rfl, (ids_post_order [[], [], [0, 1]] [[], [], [0, 1]] rfl).2.1 0 2
    (Reach.child 2 0 (by decide))⟩

/-- Provenance of a cached value: the target value, assignment and
constant-bits domain it was computed under (assignment and domain are
opaque tokens of the external VALUE capability). -/
structure CacheCtx where
  target : Nat
  assign : Nat
  domain : Nat
deriving DecidableEq, Repr

/-- Modelled from the spec: the mutable per-node state relevant to the
inverse/consistent caches (node.h lines 240-258): the current assignment,
the constant-bits domain, and the two unique_ptr caches `d_inverse` and
`d_consistent` — at most one cached inverse and one cached consistent
value per node (`Option`).  Each cached value carries the context it was
computed under, as ghost provenance. -/
structure NState where
  assign : Nat
  domain : Nat
  d_inverse : Option (Nat × CacheCtx)
  d_consistent : Option (Nat × CacheCtx)
deriving DecidableEq, Repr

/-- Modelled from the spec: the per-operator closed forms consumed by the
generic protocol (§4.3), abstracted: the invertibility condition (the
propagation variant, which may consult bounds derived from top-level
inequalities), the essential-check variant of the condition (which must
not), and the closed-form inverse and consistent value computations — each
a function of the target, the position, and the current assignment and
domain only (never of the caches). -/
structure OpModel where
  inv_cond : Nat → Nat → Nat → Nat → Bool
  inv_cond_ess : Nat → Nat → Nat → Nat → Bool
  inv_val : Nat → Nat → Nat → Nat → Nat
  con_val : Nat → Nat → Nat → Nat → Nat

/-- The invertibility condition actually evaluated for a check: the
essential-check variant must not consult bounds derived from top-level
inequalities (node.h lines 91-94), so it is a separate function. -/
def inv_cond_of (op : OpModel) (essCheck : Bool) (t pos a d : Nat) : Bool :=
  if essCheck then op.inv_cond_ess t pos a d else op.inv_cond t pos a d

/-- Modelled from the spec: `is_invertible(t, pos_x, is_essential_check)`
(node.h lines 82-101) — evaluate the invertibility condition (the
essential-check variant ignores inequality-derived bounds); when a witness
is discovered and `is_essential_check` is false, store it in the inverse
cache; when `is_essential_check` is true, no caching occurs. -/
def is_invertible_m (op : OpModel) (t pos : Nat) (essCheck : Bool)
    (s : NState) : Bool × NState :=
  if inv_cond_of op essCheck t pos s.assign s.domain && !essCheck then
    (inv_cond_of op essCheck t pos s.assign s.domain,
     { s with
       d_inverse := some (op.inv_val t pos s.assign s.domain,
         ⟨t, s.assign, s.domain⟩) })
  else (inv_cond_of op essCheck t pos s.assign s.domain, s)

/-- Modelled from the spec: `is_essential(t, pos_x)` (node.h lines 72-80)
checks whether the operand at `pos_x` is essential by calling
`is_invertible` on the other position with `is_essential_check = true`. -/
def is_essential_m (op : OpModel) (t pos : Nat) (s : NState) :
    Bool × NState :=
  ((!(is_invertible_m op t (1 - pos) true s).1),
   (is_invertible_m op t (1 - pos) true s).2)

/-- Modelled from the spec: `inverse_value(t, pos_x)` (node.h lines
112-119) — consult the inverse cache first; if absent, derive a value via
the operator's closed form from the current assignment and domain and
store it. -/
def inverse_value_m (op : OpModel) (t pos : Nat) (s : NState) :
    (Nat × CacheCtx) × NState :=
  match s.d_inverse with
  | some vc => (vc, s)
  | none =>
      ((op.inv_val t pos s.assign s.domain, ⟨t, s.assign, s.domain⟩),
       { s with
         d_inverse := some (op.inv_val t pos s.assign s.domain,
           ⟨t, s.assign, s.domain⟩) })

/-- Modelled from the spec: `consistent_value(t, pos_x)` (node.h lines
120-127), analogous to `inverse_value` with its independent cache. -/
def consistent_value_m (op : OpModel) (t pos : Nat) (s : NState) :
    (Nat × CacheCtx) × NState :=
  match s.d_consistent with
  | some vc => (vc, s)
  | none =>
      ((op.con_val t pos s.assign s.domain, ⟨t, s.assign, s.domain⟩),
       { s with
         d_consistent := some (op.con_val t pos s.assign s.domain,
           ⟨t, s.assign, s.domain⟩) })

/-- The three mutations the spec names as cache invalidation points (§3):
a change of the node's assignment, of its domain, or of the target value
propagated to it. -/
inductive Mutation where
  | setAssignment (v : Nat)
  | setDomain (d : Nat)
  | newTarget (t : Nat)

/-- Modelled from the spec: every mutation of target, assignment or domain
invalidates both caches (§3: `inverse_cache`, `consistent_cache` are
invalidated whenever target value, assignment, or domain changes). -/
def apply_mutation : Mutation → NState → NState
  | Mutation.setAssignment v, s =>
      { s with assign := v, d_inverse := none, d_consistent := none }
  | Mutation.setDomain d, s =>
      { s with domain := d, d_inverse := none, d_consistent := none }
  | Mutation.newTarget _, s =>
      { s with d_inverse := none, d_consistent := none }

/-- The operations a propagation run performs on one node's cache state. -/
inductive NOp where
  | mutate (m : Mutation)
  | checkInvertible (t pos : Nat) (essCheck : Bool)
  | checkEssential (t pos : Nat)
  | getInverse (t pos : Nat)
  | getConsistent (t pos : Nat)

/-- State effect of one operation (return values dropped). -/
def run_op (op : OpModel) : NOp → NState → NState
  | NOp.mutate m, s => apply_mutation m s
  | NOp.checkInvertible t pos ec, s => (is_invertible_m op t pos ec s).2
  | NOp.checkEssential t pos, s => (is_essential_m op t pos s).2
  | NOp.getInverse t pos, s => (inverse_value_m op t pos s).2
  | NOp.getConsistent t pos, s => (consistent_value_m op t pos s).2

/-- State effect of a sequence of operations. -/
def run_ops (op : OpModel) (ops : List NOp) (s : NState) : NState :=
  ops.foldl (fun s2 o => run_op op o s2) s

/-- Cache coherence invariant: any cached value was computed under the
current assignment and domain. -/
def coherent (s : NState) : Prop :=
  (∀ v c, s.d_inverse = some (v, c) →
    c.assign = s.assign ∧ c.domain = s.domain)
  ∧ (∀ v c, s.d_consistent = some (v, c) →
    c.assign = s.assign ∧ c.domain = s.domain)

theorem is_invertible_m_ess_state (op : OpModel) (t pos : Nat)
    (s : NState) : (is_invertible_m op t pos true s).2 = s := by
  unfold is_invertible_m
  simp

theorem mutation_coherent (m : Mutation) (s : NState) :
    coherent (apply_mutation m s) := by
  cases m <;>
    exact ⟨fun v c hc => Option.noConfusion hc,
      fun v c hc => Option.noConfusion hc⟩

theorem is_invertible_m_coherent (op : OpModel) (t pos : Nat) (ec : Bool)
    (s : NState) (h : coherent s) :
    coherent (is_invertible_m op t pos ec s).2 := by
  obtain ⟨hi, hc⟩ := h
  unfold is_invertible_m
  split
  · refine ⟨fun v2 c2 h2 => ?_, fun v2 c2 h2 => hc v2 c2 h2⟩
    simp only [Option.some_inj, Prod.mk.injEq] at h2
    rw [← h2.2]
    exact ⟨rfl, rfl⟩
  · exact ⟨hi, hc⟩

theorem is_essential_m_coherent (op : OpModel) (t pos : Nat) (s : NState)
    (h : coherent s) : coherent (is_essential_m op t pos s).2 := by
  unfold is_essential_m
  rw [is_invertible_m_ess_state]
  exact h

theorem inverse_value_m_coherent (op : OpModel) (t pos : Nat) (s : NState)
    (h : coherent s) : coherent (inverse_value_m op t pos s).2 := by
  obtain ⟨hi, hc⟩ := h
  cases hd : s.d_inverse with
  | some vc =>
      simp only [inverse_value_m, hd]
      exact ⟨hi, hc⟩
  | none =>
      simp only [inverse_value_m, hd]
      refine ⟨fun v2 c2 h2 => ?_, fun v2 c2 h2 => hc v2 c2 h2⟩
      simp only [Option.some_inj, Prod.mk.injEq] at h2
      rw [← h2.2]
      exact ⟨rfl, rfl⟩

theorem consistent_value_m_coherent (op : OpModel) (t pos : Nat)
    (s : NState) (h : coherent s) :
    coherent (consistent_value_m op t pos s).2 := by
  obtain ⟨hi, hc⟩ := h
  cases hd : s.d_consistent with
  | some vc =>
      simp only [consistent_value_m, hd]
      exact ⟨hi, hc⟩
  | none =>
      simp only [consistent_value_m, hd]
      refine ⟨fun v2 c2 h2 => hi v2 c2 h2, fun v2 c2 h2 => ?_⟩
      simp only [Option.some_inj, Prod.mk.injEq] at h2
      rw [← h2.2]
      exact ⟨rfl, rfl⟩

theorem run_op_coherent (op : OpModel) (o : NOp) (s : NState)
    (h : coherent s) : coherent (run_op op o s) := by
  cases o with
  | mutate m => exact mutation_coherent m s
  | checkInvertible t pos ec => exact is_invertible_m_coherent op t pos ec s h
  | checkEssential t pos => exact is_essential_m_coherent op t pos s h
  | getInverse t pos => exact inverse_value_m_coherent op t pos s h
  | getConsistent t pos => exact consistent_value_m_coherent op t pos s h

/-- C6: each node holds at most one cached inverse and one cached
consistent value (`Option`-valued caches); every mutation of target,
assignment or domain empties both caches, the coherence invariant (cached
values were computed under the current assignment and domain) is preserved
by every operation sequence, and immediately after any such mutation a
`inverse_value` / `consistent_value` call returns a value computed under
the post-mutation target, assignment and domain — never under the previous
ones. -/
theorem cache_coherence (op : OpModel) :
    (∀ (ops : List NOp) (s : NState), coherent s →
        coherent (run_ops op ops s))
    ∧ (∀ (m : Mutation) (s : NState),
        (apply_mutation m s).d_inverse = none
        ∧ (apply_mutation m s).d_consistent = none)
    ∧ (∀ (m : Mutation) (s : NState) (t pos : Nat),
        (inverse_value_m op t pos (apply_mutation m s)).1.2
          = ⟨t, (apply_mutation m s).assign, (apply_mutation m s).domain⟩
        ∧ (consistent_value_m op t pos (apply_mutation m s)).1.2
          = ⟨t, (apply_mutation m s).assign, (apply_mutation m s).domain⟩) := by
  refine ⟨?_, ?_, ?_⟩
  · intro ops
    induction ops with
    | nil => intro s h; exact h
    | cons o rest ih =>
        intro s h
        exact ih (run_op op o s) (run_op_coherent op o s h)
  · intro m s
    cases m <;> exact ⟨rfl, rfl⟩
  · intro m s t pos
    cases m <;> exact ⟨rfl, rfl⟩

/-- Witness for C6: running a check-then-mutate sequence on an initially
empty cache state preserves coherence. -/
theorem cache_coherence_witness :
    coherent (run_ops ⟨fun _ _ _ _ => true, fun _ _ _ _ => true,
      fun t _ _ _ => t, fun t _ _ _ => t⟩
      [NOp.checkInvertible 7 0 false,
       NOp.mutate (Mutation.setAssignment 3)]
      ⟨0, 0, none, none⟩) :=
  (cache_coherence ⟨fun _ _ _ _ => true, fun _ _ _ _ => true,
      fun t _ _ _ => t, fun t _ _ _ => t⟩).1
    [NOp.checkInvertible 7 0 false,
     NOp.mutate (Mutation.setAssignment 3)]
    ⟨0, 0, none, none⟩
    ⟨fun _ _ hc => Option.noConfusion hc, fun _ _ hc => Option.noConfusion hc⟩

/-- Iterated essential checks (`is_essential` called `k` times). -/
def iter_essential (op : OpModel) (t pos : Nat) : Nat → NState → NState
  | 0, s => s
  | k + 1, s => iter_essential op t pos k (is_essential_m op t pos s).2

/-- C4: `is_essential` (equivalently `is_invertible` with
`is_essential_check = true`) performs no caching: any number of essential
checks leaves the node state unchanged, so a subsequent `is_invertible`
(with `is_essential_check = false`) or `inverse_value` call on the same
node returns exactly what it would have returned without the essential
checks. -/
theorem essential_no_interference (op : OpModel) (t pos t2 pos2 k : Nat)
    (s : NState) :
    (is_invertible_m op t pos true s).2 = s
    ∧ iter_essential op t pos k s = s
    ∧ is_invertible_m op t2 pos2 false (iter_essential op t pos k s)
        = is_invertible_m op t2 pos2 false s
    ∧ inverse_value_m op t2 pos2 (iter_essential op t pos k s)
        = inverse_value_m op t2 pos2 s := by
  have hess : ∀ s2 : NState, (is_essential_m op t pos s2).2 = s2 := by
    intro s2
    unfold is_essential_m is_invertible_m
    simp
  have hiter : iter_essential op t pos k s = s := by
    induction k with
    | zero => rfl
    | succ k ih =>
        unfold iter_essential
        rw [hess s]
        exact ih
  refine ⟨?_, hiter, by rw [hiter], by rw [hiter]⟩
  unfold is_invertible_m
  simp

/-- The degenerate operator model used by concrete witnesses: never
invertible via the bounded condition, always via the unbounded one, with
identity value functions. -/
def demoOp : OpModel :=
  ⟨fun _ _ _ _ => false, fun _ _ _ _ => true,
   fun t _ _ _ => t, fun t _ _ _ => t⟩

/-- Modelled from the spec: debug-build `inverse_value` — calling it when
the invertibility condition was not first verified true is a fatal
precondition violation (§7): the call aborts (`none`) instead of returning
a value. -/
def inverse_value_dbg (op : OpModel) (t pos : Nat) (s : NState) :
    Option ((Nat × CacheCtx) × NState) :=
  if op.inv_cond t pos s.assign s.domain then some (inverse_value_m op t pos s)
  else none

/-- Modelled from the spec: debug-build `consistent_value`, analogous. -/
def consistent_value_dbg (op : OpModel) (t pos : Nat) (s : NState)
    (con_cond : Nat → Nat → Nat → Nat → Bool) :
    Option ((Nat × CacheCtx) × NState) :=
  if con_cond t pos s.assign s.domain then some (consistent_value_m op t pos s)
  else none

/-- C8: calling `inverse_value` (resp. `consistent_value`) without first
verifying the corresponding check is a precondition violation — fatal in
the debug model; in the release model the call cannot corrupt the DAG: the
node's assignment and domain are left untouched (only a cache may be
filled) and when a cached value is present it is returned as-is (at worst
a cached/stale value). -/
theorem value_call_precondition (op : OpModel) (t pos : Nat) (s : NState)
    (con_cond : Nat → Nat → Nat → Nat → Bool) :
    (op.inv_cond t pos s.assign s.domain = false →
        inverse_value_dbg op t pos s = none)
    ∧ (con_cond t pos s.assign s.domain = false →
        consistent_value_dbg op t pos s con_cond = none)
    ∧ (inverse_value_m op t pos s).2.assign = s.assign
    ∧ (inverse_value_m op t pos s).2.domain = s.domain
    ∧ (consistent_value_m op t pos s).2.assign = s.assign
    ∧ (consistent_value_m op t pos s).2.domain = s.domain
    ∧ (∀ vc, s.d_inverse = some vc → (inverse_value_m op t pos s).1 = vc)
    ∧ (∀ vc, s.d_consistent = some vc →
        (consistent_value_m op t pos s).1 = vc) := by
  refine ⟨?_, ?_, ?_, ?_, ?_, ?_, ?_, ?_⟩
  · intro h
    unfold inverse_value_dbg
    rw [h]
    rfl
  · intro h
    unfold consistent_value_dbg
    rw [h]
    rfl
  · unfold inverse_value_m
    cases s.d_inverse <;> rfl
  · unfold inverse_value_m
    cases s.d_inverse <;> rfl
  · unfold consistent_value_m
    cases s.d_consistent <;> rfl
  · unfold consistent_value_m
    cases s.d_consistent <;> rfl
  · intro vc hc
    unfold inverse_value_m
    rw [hc]
  · intro vc hc
    unfold consistent_value_m
    rw [hc]

/-- Witness for C8: with the demo operator model (whose bounded
invertibility condition is constantly false), the debug call aborts and
the release call leaves assignment and domain unchanged. -/
theorem value_call_precondition_witness :
    demoOp.inv_cond 7 0 (0 : Nat) (0 : Nat) = false
    ∧ inverse_value_dbg demoOp 7 0 ⟨0, 0, none, none⟩ = none :=
  ⟨rfl, (value_call_precondition demoOp 7 0 ⟨0, 0, none, none⟩
    (fun _ _ _ _ => false)).1 rfl⟩

/-- The C++ integral conversion of a signed value to `uint64_t`: reduction
modulo `2 ^ 64`. -/
def uint64_of_int (i : Int) : Nat := (i % (2 ^ 64 : Int)).toNat

/-- The "more than one non-const operand" sentinel of
`select_path_non_const`: the header (node.h lines 206-215) documents the
return value -1 with return type `uint64_t`. -/
def sentinel : Nat := uint64_of_int (-1)

/-- The indices of all non-const operands, in ascending order (`true` in
the input list marks a child that is a value, i.e. const). -/
def nonConstIndices (child_is_value : List Bool) : List Nat :=
  (List.range child_is_value.length).filter fun i =>
    !(child_is_value.getD i true)

/-- Modelled from the spec: `select_path_non_const` (node.h lines
206-215) — collect the indices of all non-const operands into the output
vector; assert that at least one operand is non-const (`none` models the
assertion firing); return the index of the only non-const operand, or -1
(as `uint64_t`) if more than one operand is non-const. -/
def select_path_non_const (child_is_value : List Bool) :
    Option (List Nat × Nat) :=
  if (nonConstIndices child_is_value).length = 0 then none
  else if (nonConstIndices child_is_value).length = 1 then
    some (nonConstIndices child_is_value,
      (nonConstIndices child_is_value).headD 0)
  else some (nonConstIndices child_is_value, sentinel)

theorem mem_nonConstIndices (cs : List Bool) (i : Nat) :
    i ∈ nonConstIndices cs ↔ i < cs.length ∧ cs.getD i true = false := by
  unfold nonConstIndices
  rw [List.mem_filter, List.mem_range]
  simp

/-- C5: `select_path_non_const` asserts at least one non-const operand
(under that precondition it returns a result); it always fills the output
vector with exactly the indices of the non-const children; when exactly
one child is non-const it returns that child's index; when more than one
child is non-const it returns the "more than one candidate" sentinel
together with the output vector of size greater than 1. -/
theorem select_path_non_const_spec (cs : List Bool)
    (h : ∃ i, i < cs.length ∧ cs.getD i true = false) :
    select_path_non_const cs ≠ none
    ∧ (∀ i, i ∈ nonConstIndices cs ↔
        i < cs.length ∧ cs.getD i true = false)
    ∧ ((nonConstIndices cs).length = 1 →
        ∀ i, i < cs.length → cs.getD i true = false →
          select_path_non_const cs = some (nonConstIndices cs, i))
    ∧ (1 < (nonConstIndices cs).length →
        select_path_non_const cs = some (nonConstIndices cs, sentinel)) := by
  have hne : nonConstIndices cs ≠ [] := by
    obtain ⟨i, hi, hv⟩ := h
    intro hnil
    have : i ∈ nonConstIndices cs := (mem_nonConstIndices cs i).mpr ⟨hi, hv⟩
    rw [hnil] at this
    exact absurd this (List.not_mem_nil i)
  have hlen0 : (nonConstIndices cs).length ≠ 0 :=
    fun h0 => hne (List.length_eq_zero.mp h0)
  refine ⟨?_, fun i => mem_nonConstIndices cs i, ?_, ?_⟩
  · unfold select_path_non_const
    rw [if_neg hlen0]
    split <;> exact fun h2 => Option.noConfusion h2
  · intro h1 i hi hv
    obtain ⟨a, ha⟩ := List.length_eq_one.mp h1
    have hia : i = a := by
      have : i ∈ nonConstIndices cs := (mem_nonConstIndices cs i).mpr ⟨hi, hv⟩
      rw [ha] at this
      exact List.mem_singleton.mp this
    unfold select_path_non_const
    rw [if_neg hlen0, if_pos h1, ha, hia]
    rfl
  · intro h2
    unfold select_path_non_const
    rw [if_neg hlen0, if_neg (by omega)]

/-- Witness for C5: three children of which exactly positions 0 and 2 are
non-const — the result is the sentinel with candidate vector [0, 2]. -/
theorem select_path_non_const_spec_witness :
    (∃ i, i < 3 ∧ [false, true, false].getD i true = false)
    ∧ select_path_non_const [false, true, false]
        = some (nonConstIndices [false, true, false], sentinel) :=
  ⟨⟨0, by decide, rfl⟩,
   (select_path_non_const_spec [false, true, false]
      ⟨0, by decide, rfl⟩).2.2.2 (by decide)⟩

/-- C10: the sentinel is -1 converted to the unsigned 64-bit return type,
equal to `2 ^ 64 - 1`, and distinct from every valid child index of a node
(arity, hence every index, is below 3 — the constructors in node.h take at
most three children). -/
theorem sentinel_spec (cs : List Bool) (harity : cs.length ≤ 3) :
    sentinel = uint64_of_int (-1)
    ∧ sentinel = 2 ^ 64 - 1
    ∧ (∀ i ∈ nonConstIndices cs, i ≠ sentinel) := by
  refine ⟨rfl, by decide, ?_⟩
  intro i hi
  have := (mem_nonConstIndices cs i).mp hi
  have h64 : sentinel = 2 ^ 64 - 1 := by decide
  rw [h64]
  omega

/-- Witness for C10: with three non-const children every candidate index
differs from the sentinel. -/
theorem sentinel_spec_witness :
    [false, false, false].length ≤ 3
    ∧ sentinel = 2 ^ 64 - 1 :=
  ⟨by decide, (sentinel_spec [false, false, false] (by decide)).2.1⟩

/-- Embedded from node.h line 24: `static inline bool s_path_sel_essential
= true;` — "True if path is to be selected based on essential inputs,
false if it is to be selected randomly."  A process-wide (static) setting
affecting every node. -/
def s_path_sel_essential : Bool := true

/-- Embedded from node.h line 29: `static inline uint32_t
s_prob_pick_ess_input = 990;` — probability (in permille, 990 = 99.0%) for
picking an essential input if there is one.  A process-wide (static)
setting affecting every node. -/
def s_prob_pick_ess_input : Nat := 990

/-- Counterexample for C7: the claim as stated says the global toggle that
disables essential-input-based path selection is enabled by default, i.e.
that by default `s_path_sel_essential` is false (pure random selection);
but the header default is `s_path_sel_essential = true`. -/
theorem path_sel_default_counterexample : ¬ s_path_sel_essential = false := by
  decide

/-- C7 (amended): the probability of preferring an essential input during
path selection is a configurable process-wide static with default 990 of
1000, i.e. 99% (0.99); the global toggle `s_path_sel_essential` is true by
default, meaning essential-input-based path selection is enabled by
default, and setting it to false disables it entirely in favour of pure
random path selection. -/
theorem path_sel_defaults :
    s_prob_pick_ess_input = 990
    ∧ s_prob_pick_ess_input * 100 = 99 * 1000
    ∧ s_path_sel_essential = true := by
  decide

/-- Embedded from node.h (lines 192-204, 217-232, 234-258): a node record
with the header's data members; the id fields carry the default member
initializers `d_id = 0` and `d_normalized_id = 0`, and no constructor
parameter supplies an id (the RNG is modelled as an opaque token, children
as their ids). -/
structure NodeRec where
  d_id : Nat
  d_normalized_id : Nat
  d_children : List Nat
  d_rng : Nat
  d_assignment : Nat
  d_arity : Nat
  d_is_value : Bool
deriving DecidableEq, Repr

/-- Modelled from the spec: the leaf constructor `Node(rng, assignment,
is_value)` — the id fields keep their header defaults of 0. -/
def mkNode0 (rng a : Nat) (iv : Bool) : NodeRec :=
  ⟨0, 0, [], rng, a, 0, iv⟩

/-- Modelled from the spec: the unary constructor `Node(rng, assignment,
child0, is_value)`. -/
def mkNode1 (rng a c0 : Nat) (iv : Bool) : NodeRec :=
  ⟨0, 0, [c0], rng, a, 1, iv⟩

/-- Modelled from the spec: the binary constructor `Node(rng, assignment,
child0, child1, is_value)`. -/
def mkNode2 (rng a c0 c1 : Nat) (iv : Bool) : NodeRec :=
  ⟨0, 0, [c0, c1], rng, a, 2, iv⟩

/-- Modelled from the spec: the ternary constructor `Node(rng, assignment,
child0, child1, child2, is_value)`. -/
def mkNode3 (rng a c0 c1 c2 : Nat) (iv : Bool) : NodeRec :=
  ⟨0, 0, [c0, c1, c2], rng, a, 3, iv⟩

/-- Embedded from node.h line 164: `set_id` — the driver assigns the id
after construction. -/
def set_id (n : NodeRec) (i : Nat) : NodeRec := { n with d_id := i }

/-- Embedded from node.h line 169: `set_normalized_id`. -/
def set_normalized_id (n : NodeRec) (i : Nat) : NodeRec :=
  { n with d_normalized_id := i }

/-- C9: a freshly constructed node has `id() == 0` and `normalized_id() ==
0` whatever its constructor arguments — construction does not assign a
unique id; ids exist only after the driver calls `set_id` (and
`set_normalized_id`), which overwrite exactly the id fields. -/
theorem fresh_node_ids_zero (rng a c0 c1 c2 i : Nat) (iv : Bool) :
    ((mkNode0 rng a iv).d_id = 0 ∧ (mkNode0 rng a iv).d_normalized_id = 0)
    ∧ ((mkNode1 rng a c0 iv).d_id = 0
        ∧ (mkNode1 rng a c0 iv).d_normalized_id = 0)
    ∧ ((mkNode2 rng a c0 c1 iv).d_id = 0
        ∧ (mkNode2 rng a c0 c1 iv).d_normalized_id = 0)
    ∧ ((mkNode3 rng a c0 c1 c2 iv).d_id = 0
        ∧ (mkNode3 rng a c0 c1 c2 iv).d_normalized_id = 0)
    ∧ (set_id (mkNode0 rng a iv) i).d_id = i
    ∧ (set_normalized_id (mkNode0 rng a iv) i).d_normalized_id = i :=
  ⟨⟨rfl, rfl⟩, ⟨rfl, rfl⟩, ⟨rfl, rfl⟩, ⟨rfl, rfl⟩, rfl, rfl⟩

end BzlaLS
